import Mathlib

/-!
Verification development for the Word-Peaks agent repository.

Shallow embedding of the core modules:
  * `src/wpa/game.py`        — the scoring oracle (`Game`)
  * `src/wpa/agents/base.py` — candidate tracking and play driver (`BaseAgent`)
  * `src/wpa/agents/simple.py` — the deterministic selector (`SimpleAgent`)
  * `src/wpa/agents/random.py` — the randomized selector (`RandomAgent`)

Python conventions mirrored by the embedding:
  * strings are lists of characters (`Word := List Char`), compared by code
    point exactly as Python compares one-character strings;
  * Python floats are modelled as exact rationals (`Rat`); every float that
    occurs in the program's arithmetic (±0.5 scores, means of integer lists,
    the selector's scores) is used only through exact comparisons here;
  * a raised exception is modelled by `none` / `Except.error`; an operation
    that raises produces no result value;
  * `list(range(a, b))` is `pyRange a b`.
-/

namespace WPA

/-- A Python string, as a list of characters. -/
abbrev Word := List Char

/-- `list(range(a, b))`: the ascending list `[a, a+1, ..., b-1]` (empty when `b ≤ a`). -/
def pyRange (a b : Nat) : List Nat := List.range' a (b - a)

/-- `ALL_LETTERS = list(range(ord('a'), ord('z') + 1))` from `agents/base.py`. -/
def ALL_LETTERS : List Nat := pyRange 97 123

/-- `statistics.mean` on a list of integers, as an exact rational. -/
def listMean (l : List Nat) : Rat := (l.sum : Rat) / (l.length : Rat)

/-- The mutable state of a `Game` instance (`game.py`): the allowed-guesses
list `words`, the `answers` list, the current `index` into it, and the active
secret `word` (`None` when no game is active). The RNG and the `randomize`
flag are omitted: no claim depends on shuffling. -/
structure GameState where
  words : List Word
  answers : List Word
  index : Nat
  word : Option Word
deriving DecidableEq

/-- `Game.start` (`game.py` lines 57-67): returns `False` when the answers
list is exhausted, otherwise activates the next answer and advances `index`.
`none` models the (unreachable for `index ≤ length`) out-of-bounds access. -/
def Game.start (s : GameState) : Option (Bool × GameState) :=
  if s.index = s.answers.length then some (false, s)
  else
    match s.answers[s.index]? with
    | some w => some (true, { s with word := some w, index := s.index + 1 })
    | none => none

/-- One position comparison from `Game.score_guess`: the secret letter `c`
against the guess letter `g`. `-0.5` when `c < g`, `0.5` when `c > g`,
`0.0` otherwise. -/
def cmpChar (c g : Char) : Rat :=
  if c < g then -(1/2) else if c > g then 1/2 else 0

/-- The scoring loop of `Game.score_guess`: `rtn` starts as `[0.0] * len(guess)`
and position `i` is overwritten with the comparison of secret and guess letters
for each `i < len(secret)`. The loop raises `IndexError` (modelled `none`) when
the secret is longer than the guess. (`score_guess` only calls this with
`len(rtn) = len(guess)`.) -/
def buildRtn : List Char → List Char → Option (List Rat)
  | [], gs => some (List.replicate gs.length 0)
  | _ :: _, [] => none
  | c :: cs, g :: gs => (buildRtn cs gs).map (cmpChar c g :: ·)

/-- `Game.score_guess` (`game.py` lines 69-104). Returns the score list (or the
raised error) together with the post-call state; every error is raised before
any mutation, so the state component is unchanged on the error paths. The
`if not self.word` check is falsy for both `None` and the empty string. -/
def Game.score_guess (s : GameState) (guess : Word) :
    Except String (List Rat) × GameState :=
  match s.word with
  | none => (.error "score_guess: called with no active word", s)
  | some w =>
    if w.isEmpty then (.error "score_guess: called with no active word", s)
    else if guess.length ≠ 5 then (.error "score_guess: guess is not 5 letters", s)
    else if guess ∉ s.words then (.error "score_guess: guess is not an allowed guess", s)
    else
      match buildRtn w guess with
      | none => (.error "IndexError: string index out of range", s)
      | some rtn =>
        if (rtn.map (fun x => |x|)).sum = 0 then (.ok rtn, { s with word := none })
        else (.ok rtn, s)

/-- The per-agent candidate-tracking state (`agents/base.py`): the three
parallel 5-element lists `ranges`, `means`, `lengths`, plus the agent's own
copy of the allowed-word list. -/
structure AgentState where
  ranges : List (List Nat)
  means : List Rat
  lengths : List Nat
  words : List Word
deriving DecidableEq

/-- `BaseAgent.start_game` (`agents/base.py` lines 71-79): resets every
position's range to the full alphabet, its mean to `mean(ALL_LETTERS)` and its
length to 26. -/
def BaseAgent.start_game (st : AgentState) : AgentState :=
  { st with
    ranges := List.replicate 5 ALL_LETTERS
    means := List.replicate 5 (listMean ALL_LETTERS)
    lengths := List.replicate 5 26 }

/-- The per-position range update inside `BaseAgent.apply_guess`
(lines 112-125): for guess letter `c` with score `sc`,
`sc > 0` gives `list(range(r[0], ord(c)))`,
`sc < 0` gives `list(range(ord(c) + 1, r[-1] + 1))`,
otherwise the range collapses to `[ord(c)]`.
`none` models the `IndexError` from `r[0]` / `r[-1]` on an empty stored range. -/
def stepRange (r : List Nat) (c : Char) (sc : Rat) : Option (List Nat) :=
  if 0 < sc then r.head?.map (fun lo => pyRange lo c.toNat)
  else if sc < 0 then r.getLast?.map (fun hi => pyRange (c.toNat + 1) (hi + 1))
  else some [c.toNat]

/-- The `for i, c in enumerate(guess)` loop of `BaseAgent.apply_guess`
(lines 112-128), updating the three parallel lists position by position.
`none` models the exceptions the loop can raise: an `IndexError` when
`score`, `ranges`, `means` or `lengths` is shorter than the guess, an
`IndexError` inside `stepRange`, and the `StatisticsError` from
`mean(self.ranges[i])` when the updated range is empty. -/
def updateLoop : List Char → List Rat → List (List Nat) → List Rat → List Nat →
    Option (List (List Nat) × List Rat × List Nat)
  | [], _, rs, ms, ls => some (rs, ms, ls)
  | c :: cs, sc :: scs, r :: rs, _ :: ms, _ :: ls =>
    match stepRange r c sc with
    | none => none
    | some r' =>
      if r'.length = 0 then none
      else
        match updateLoop cs scs rs ms ls with
        | none => none
        | some (rs', ms', ls') => some (r' :: rs', listMean r' :: ms', r'.length :: ls')
  | _, _, _, _, _ => none

/-- One piece of the regular-expression pattern built by
`BaseAgent.create_re_pattern`: a single literal character, or the character
class `[a-b]`. Characters are carried as code points. -/
inductive Piece where
  | single (c : Nat)
  | interval (a b : Nat)
deriving DecidableEq

/-- `BaseAgent.create_re_pattern` (lines 81-94): for each of the 5 positions,
a single character when the stored length is 1, otherwise the class
`[ranges[i][0]-ranges[i][-1]]`. `none` models the `IndexError` from indexing
a missing or empty range. -/
def buildPieces : Nat → List (List Nat) → List Nat → Option (List Piece)
  | 0, _, _ => some []
  | n + 1, r :: rs, l :: ls =>
    if l = 1 then
      match r.head? with
      | none => none
      | some x => (buildPieces n rs ls).map (Piece.single x :: ·)
    else
      match r.head?, r.getLast? with
      | some a, some b => (buildPieces n rs ls).map (Piece.interval a b :: ·)
      | _, _ => none
  | _ + 1, _, _ => none

/-- Semantics of one pattern piece on one character: a literal matches by code
point equality, a class `[a-b]` matches code points in `[a, b]` (the pieces
produced during play hold letter code points, for which Python's regex engine
gives exactly this semantics). -/
def pieceMatches : Piece → Char → Bool
  | .single x, ch => ch.toNat == x
  | .interval a b, ch => decide (a ≤ ch.toNat) && decide (ch.toNat ≤ b)

/-- Semantics of the anchored pattern `^p0p1p2p3p4$` used by `apply_guess`:
a word matches iff it has exactly one character per piece and each character
matches its piece. -/
def reMatch : List Piece → List Char → Bool
  | [], [] => true
  | p :: ps, c :: cs => pieceMatches p c && reMatch ps cs
  | _, _ => false

/-- `BaseAgent.apply_guess` (`agents/base.py` lines 96-143): update the three
tracking lists from the guess and its score, build the pattern, filter the
candidate list, and remove the first occurrence of the guess (`list.remove`
inside `try/except`: absent guess is ignored, duplicates beyond the first
survive). `none` models the exceptions of the update loop and pattern build. -/
def BaseAgent.apply_guess (st : AgentState) (words_in : List Word) (guess : Word)
    (score : List Rat) : Option (List Word × AgentState) :=
  match updateLoop guess score st.ranges st.means st.lengths with
  | none => none
  | some (rs, ms, ls) =>
    match buildPieces 5 rs ls with
    | none => none
    | some pieces =>
      some ((words_in.filter (fun w => reMatch pieces w)).erase guess,
            { st with ranges := rs, means := ms, lengths := ls })

/-- `SimpleAgent.score`'s accumulation loop (`agents/simple.py` lines 44-46):
sum of `|means[i] - ord(c)| / lengths[i]` over the word's letters. `none`
models the `IndexError` when the word is longer than the 5-entry state lists
and the `ZeroDivisionError` when a stored length is 0. -/
def scoreAux : List Rat → List Nat → List Char → Option Rat
  | _, _, [] => some 0
  | m :: ms, l :: ls, c :: cs =>
    if l = 0 then none
    else (scoreAux ms ls cs).map (fun rest => |m - (c.toNat : Rat)| / (l : Rat) + rest)
  | _, _, _ :: _ => none

/-- `SimpleAgent.score` (`agents/simple.py` lines 38-48): the negated sum. -/
def SimpleAgent.score (means : List Rat) (lengths : List Nat) (word : Word) : Option Rat :=
  (scoreAux means lengths word).map (fun s => -s)

/-- The list comprehension `[(x, self.score(x)) for x in guesses]` of
`SimpleAgent.select_guess`; `none` when any score raises. -/
def weigh (means : List Rat) (lengths : List Nat) : List Word → Option (List (Word × Rat))
  | [] => some []
  | x :: xs =>
    match SimpleAgent.score means lengths x with
    | none => none
    | some s => (weigh means lengths xs).map ((x, s) :: ·)

/-- One insertion step of a stable descending sort on the score component:
the inserted element precedes every already-placed element whose score is
less than or equal to its own, so earlier input elements stay ahead of
later equal-scored ones. -/
def sortInsert (x : Word × Rat) : List (Word × Rat) → List (Word × Rat)
  | [] => [x]
  | y :: ys => if y.2 ≤ x.2 then x :: y :: ys else y :: sortInsert x ys

/-- Stable descending sort by score, modelling
`weighted.sort(key=itemgetter(1), reverse=True)` (Python's sort is stable,
and `reverse=True` keeps equal-keyed elements in input order). -/
def sortWeighted : List (Word × Rat) → List (Word × Rat)
  | [] => []
  | x :: xs => sortInsert x (sortWeighted xs)

/-- `SimpleAgent.select_guess` (`agents/simple.py` lines 50-56): weight every
candidate, sort stably by descending score, return `weighted[0][0]`. `none`
models the `IndexError` on an empty candidate list (and a raising score). -/
def SimpleAgent.select_guess (means : List Rat) (lengths : List Nat)
    (guesses : List Word) : Option Word :=
  match weigh means lengths guesses with
  | none => none
  | some weighted => ((sortWeighted weighted).head?).map (·.1)

/-- `RandomAgent.select_guess` (`agents/random.py` lines 44-47):
`self.rng.choice(guesses)` picks the element at an RNG-chosen index below the
list's length; the RNG draw is abstracted into the `idx` parameter. On an
empty sequence `random.choice` raises `IndexError` (`none`). -/
def RandomAgent.select_guess (idx : Nat) (guesses : List Word) : Option Word :=
  guesses[idx % guesses.length]?

/-- The per-game record built by `SimpleAgent.play_once` and consumed by
`BaseAgent.play`: the `(guess, score-sum)` pairs, the raw responses, the
solved word (if any), the 0/1 success flag and the cumulative score. -/
structure GameOutcome where
  guesses : List (Word × Rat)
  responses : List (List Rat)
  word : Option Word
  result : Rat
  score : Rat
deriving DecidableEq

/-- The aggregate dictionary returned by `BaseAgent.play` (the constant
`name` string is omitted). -/
structure PlayResult where
  history : List GameOutcome
  count : Nat
  guess_avg : Rat
  score_avg : Rat
  result : Rat
deriving DecidableEq

/-- The `while self.game.start():` loop of `BaseAgent.play` (lines 165-170),
parametric in the subclass's `play_once`. The loop counter is incremented on
every successful `start`; with a non-zero limit `n` the loop breaks before
playing once the counter exceeds `n`. The `fuel` argument bounds the
iteration count so the model is total; `none` means the fuel ran out (or
`start` raised), which cannot happen for the runs the theorems describe. -/
def playLoop (playOnce : GameState → GameOutcome × GameState) :
    Nat → GameState → Nat → Nat → List GameOutcome →
    Option (List GameOutcome × Nat × GameState)
  | 0, _, _, _, _ => none
  | fuel + 1, s, n, count, history =>
    match Game.start s with
    | none => none
    | some (false, s') => some (history, count, s')
    | some (true, s') =>
      let count' := count + 1
      if n ≠ 0 ∧ n < count' then some (history, count', s')
      else
        let os := playOnce s'
        playLoop playOnce fuel os.2 n count' (history ++ [os.1])

/-- `BaseAgent.play` (`agents/base.py` lines 153-192): run the loop, then
aggregate. The loop counter is discarded (`count = len(history)` overwrites
it), the three totals are the sums over `history`, and each average divides by
`count` — raising `ZeroDivisionError` when no game was played. -/
def BaseAgent.play (playOnce : GameState → GameOutcome × GameState)
    (s : GameState) (n : Nat) : Option (Except String PlayResult) :=
  match playLoop playOnce (s.answers.length - s.index + 1) s n 0 [] with
  | none => none
  | some (history, _, _) =>
    let count := history.length
    if count = 0 then some (.error "ZeroDivisionError: division by zero")
    else
      some (.ok {
        history := history
        count := count
        guess_avg := ((history.map (fun o => (o.guesses.length : Rat))).sum) / (count : Rat)
        score_avg := ((history.map (fun o => o.score)).sum) / (count : Rat)
        result := ((history.map (fun o => o.result)).sum) / (count : Rat) })

/-- The successive game outcomes produced by iterating `Game.start` and
`play_once`, used to describe the history `BaseAgent.play` accumulates. -/
def runGames (playOnce : GameState → GameOutcome × GameState) :
    Nat → GameState → List GameOutcome
  | 0, _ => []
  | m + 1, s =>
    match Game.start s with
    | some (true, s') => (playOnce s').1 :: runGames playOnce m (playOnce s').2
    | _ => []

/-- Decidable test that a stored range is a contiguous ascending interval
(the shape every range produced by the program has). -/
def isIntervalB (r : List Nat) : Bool := r == pyRange (r.headD 0) (r.headD 0 + r.length)

/-- Modelled from the spec: the selection the deterministic selector is
claimed to make — the first element of the list whose score is maximal. -/
def specFirstMaximal (f : Word → Rat) (l : List Word) : Option Word :=
  l.find? (fun x => l.all (fun y => decide (f y ≤ f x)))

/-! ### Concrete inputs used by the closed theorems -/

/-- The word `"aaaaa"`. -/
def wa : Word := ['a', 'a', 'a', 'a', 'a']

/-- The word `"bbbbb"`. -/
def wb : Word := ['b', 'b', 'b', 'b', 'b']

/-- The word `"zzzzz"`. -/
def wz : Word := ['z', 'z', 'z', 'z', 'z']

/-- A freshly constructed agent with empty word list, before `start_game`. -/
def blankAgent : AgentState := ⟨[], [], [], []⟩

/-- The agent state reached from `start_game` by one `apply_guess` of
`"aaaaa"` with an all-correct score: every range collapsed to `[97]`. -/
def singletonSt : AgentState :=
  ⟨List.replicate 5 [97], List.replicate 5 (listMean [97]), List.replicate 5 1, []⟩

/-- Code point of `'a'`. -/
theorem charA : 'a'.toNat = 97 := rfl

/-- Code point of `'b'`. -/
theorem charB : 'b'.toNat = 98 := rfl

/-- Code point of `'z'`. -/
theorem charZ : 'z'.toNat = 122 := rfl

/-! ### Helper lemmas about the scoring loop -/

/-- `buildRtn` succeeds whenever the secret is no longer than the guess, and
returns one entry per guess letter. -/
theorem buildRtn_some : ∀ (w g : List Char), w.length ≤ g.length →
    ∃ rtn, buildRtn w g = some rtn ∧ rtn.length = g.length
  | [], g, _ => ⟨List.replicate g.length 0, rfl, List.length_replicate _ _⟩
  | c :: cs, [], h => absurd h (by simp)
  | c :: cs, g :: gs, h => by
    obtain ⟨rtn, hr, hl⟩ := buildRtn_some cs gs (Nat.le_of_succ_le_succ h)
    exact ⟨cmpChar c g :: rtn, by simp [buildRtn, hr], by simp [hl]⟩

/-- For equal lengths the scoring loop is the pointwise comparison. -/
theorem buildRtn_eq_zipWith : ∀ (w g : List Char), w.length = g.length →
    buildRtn w g = some (List.zipWith cmpChar w g)
  | [], [], _ => rfl
  | [], g :: gs, h => by simp at h
  | c :: cs, [], h => by simp at h
  | c :: cs, g :: gs, h => by
    simp only [buildRtn, List.zipWith]
    rw [buildRtn_eq_zipWith cs gs (by simpa using h)]
    rfl

/-- The sum of absolute values of a rational list is nonnegative. -/
theorem sum_abs_nonneg : ∀ (l : List Rat), 0 ≤ (l.map (fun x => |x|)).sum
  | [] => le_refl 0
  | x :: xs => by
    simp only [List.map_cons, List.sum_cons]
    exact add_nonneg (abs_nonneg x) (sum_abs_nonneg xs)

/-- `sum(map(abs, rtn)) == 0` holds exactly when every entry is zero. -/
theorem sum_abs_eq_zero (l : List Rat) :
    (l.map (fun x => |x|)).sum = 0 ↔ ∀ x ∈ l, x = 0 := by
  induction l with
  | nil => simp
  | cons x xs ih =>
    simp only [List.map_cons, List.sum_cons, List.mem_cons]
    constructor
    · intro h
      have hx : |x| = 0 ∧ (xs.map (fun x => |x|)).sum = 0 :=
        (add_eq_zero_iff_of_nonneg (abs_nonneg x) (sum_abs_nonneg xs)).mp h
      have h1 := abs_eq_zero.mp hx.1
      intro y hy
      rcases hy with hy | hy
      · exact hy ▸ h1
      · exact (ih.mp hx.2) y hy
    · intro h
      have hx : x = 0 := h x (Or.inl rfl)
      have hxs : (xs.map (fun x => |x|)).sum = 0 := ih.mpr fun y hy => h y (Or.inr hy)
      simp [hx, hxs]

/-- A position comparison is zero exactly when the two letters coincide. -/
theorem cmpChar_eq_zero (c g : Char) : cmpChar c g = 0 ↔ c = g := by
  unfold cmpChar
  rcases lt_trichotomy c g with h | h | h
  · simp only [if_pos h]
    constructor
    · intro h0; exact absurd h0 (by norm_num)
    · intro he; exact absurd (he ▸ h) (lt_irrefl _)
  · simp [h]
  · rw [if_neg (not_lt_of_gt h), if_pos h]
    constructor
    · intro h0; exact absurd h0 (by norm_num)
    · intro he; exact absurd (he ▸ h) (lt_irrefl _)

/-- All pointwise comparisons vanish exactly when the words coincide. -/
theorem zipWith_cmpChar_zero : ∀ (w g : List Char), w.length = g.length →
    ((∀ x ∈ List.zipWith cmpChar w g, x = 0) ↔ g = w)
  | [], [], _ => by simp
  | [], g :: gs, h => by simp at h
  | c :: cs, [], h => by simp at h
  | c :: cs, g :: gs, h => by
    simp only [List.zipWith, List.mem_cons, List.cons.injEq]
    constructor
    · intro hz
      have hc : c = g := (cmpChar_eq_zero c g).mp (hz _ (Or.inl rfl))
      have := (zipWith_cmpChar_zero cs gs (by simpa using h)).mp
        (fun x hx => hz x (Or.inr hx))
      exact ⟨hc.symm, this⟩
    · rintro ⟨hg, hgs⟩ x hx
      rcases hx with hx | hx
      · rw [hx, hg, cmpChar_eq_zero]
      · exact (zipWith_cmpChar_zero cs gs (by simpa using h)).mpr hgs x hx

/-! ### C4 -/

/-- C4: for oracle states whose active word (when present) is a genuine
5-letter word, `score_guess` raises exactly when there is no active word, or
the guess is not 5 letters, or the guess is not in the allowed list; on every
raising path the state is returned untouched, and on the non-raising path the
result has exactly 5 entries. -/
theorem C4_score_guess_errors (s : GameState) (guess : Word)
    (h5 : ∀ w, s.word = some w → w.length = 5) :
    ((∃ e, (Game.score_guess s guess).1 = .error e) ↔
      (s.word = none ∨ guess.length ≠ 5 ∨ guess ∉ s.words)) ∧
    ((∃ e, (Game.score_guess s guess).1 = .error e) →
      (Game.score_guess s guess).2 = s) ∧
    (∀ rtn, (Game.score_guess s guess).1 = .ok rtn → rtn.length = 5) := by
  match hw : s.word with
  | none =>
    refine ⟨⟨fun _ => Or.inl rfl,
      fun _ => ⟨"score_guess: called with no active word", by simp [Game.score_guess, hw]⟩⟩,
      ?_, ?_⟩
    · intro _; simp [Game.score_guess, hw]
    · intro rtn h; simp [Game.score_guess, hw] at h
  | some w =>
    have hwl : w.length = 5 := h5 w hw
    have hne : w.isEmpty = false := by
      cases w with
      | nil => simp at hwl
      | cons a as => rfl
    by_cases hg : guess.length = 5
    · by_cases hmem : guess ∈ s.words
      · obtain ⟨rtn, hr, hl⟩ := buildRtn_some w guess (by omega)
        refine ⟨⟨?_, ?_⟩, ?_, ?_⟩
        · rintro ⟨e, he⟩
          simp [Game.score_guess, hw, hne, hg, hmem, hr] at he
          split at he <;> simp at he
        · rintro (h | h | h)
          · simp [hw] at h
          · exact absurd hg h
          · exact absurd hmem h
        · rintro ⟨e, he⟩
          simp [Game.score_guess, hw, hne, hg, hmem, hr] at he
          split at he <;> simp at he
        · intro rtn' h
          simp [Game.score_guess, hw, hne, hg, hmem, hr] at h
          split at h <;> (simp at h; exact h ▸ (hg ▸ hl))
      · refine ⟨⟨fun _ => Or.inr (Or.inr hmem),
          fun _ => ⟨"score_guess: guess is not an allowed guess",
            by simp [Game.score_guess, hw, hne, hg, hmem]⟩⟩, ?_, ?_⟩
        · intro _; simp [Game.score_guess, hw, hne, hg, hmem]
        · intro rtn h; simp [Game.score_guess, hw, hne, hg, hmem] at h
    · refine ⟨⟨fun _ => Or.inr (Or.inl hg),
        fun _ => ⟨"score_guess: guess is not 5 letters",
          by simp [Game.score_guess, hw, hne, hg]⟩⟩, ?_, ?_⟩
      · intro _; simp [Game.score_guess, hw, hne, hg]
      · intro rtn h; simp [Game.score_guess, hw, hne, hg] at h

/-- C4, witnessed: a state with an active 5-letter word and a malformed
guess raises and leaves the state unchanged; a well-formed guess returns a
5-entry outcome. -/
theorem C4_witness :
    (∀ w, (⟨[wb], [wa], 1, some wa⟩ : GameState).word = some w → w.length = 5) ∧
    (((∃ e, (Game.score_guess ⟨[wb], [wa], 1, some wa⟩ ['q']).1 = .error e) ↔
      ((⟨[wb], [wa], 1, some wa⟩ : GameState).word = none ∨
        (['q'] : Word).length ≠ 5 ∨
        (['q'] : Word) ∉ (⟨[wb], [wa], 1, some wa⟩ : GameState).words)) ∧
    ((∃ e, (Game.score_guess ⟨[wb], [wa], 1, some wa⟩ ['q']).1 = .error e) →
      (Game.score_guess ⟨[wb], [wa], 1, some wa⟩ ['q']).2 = ⟨[wb], [wa], 1, some wa⟩) ∧
    (∀ rtn, (Game.score_guess ⟨[wb], [wa], 1, some wa⟩ ['q']).1 = .ok rtn → rtn.length = 5)) :=
  ⟨by intro w h; cases h; rfl,
   C4_score_guess_errors ⟨[wb], [wa], 1, some wa⟩ ['q']
     (by intro w h; cases h; rfl)⟩

/-! ### C6 -/

/-- C6: with an active 5-letter secret and an allowed 5-letter guess,
`score_guess` succeeds; its outcome is all-"correct" (all components zero)
exactly when the guess equals the secret, and the active word is cleared to
`none` in exactly that case, being left unchanged otherwise. -/
theorem C6_score_guess_correct (s : GameState) (w guess : Word)
    (hw : s.word = some w) (hwl : w.length = 5) (hgl : guess.length = 5)
    (hmem : guess ∈ s.words) :
    ∃ rtn, (Game.score_guess s guess).1 = .ok rtn ∧
      ((∀ x ∈ rtn, x = 0) ↔ guess = w) ∧
      (Game.score_guess s guess).2.word = (if guess = w then none else some w) := by
  have hne : w.isEmpty = false := by
    cases w with
    | nil => simp at hwl
    | cons a as => rfl
  have hr : buildRtn w guess = some (List.zipWith cmpChar w guess) :=
    buildRtn_eq_zipWith w guess (by omega)
  have hzero : ((List.zipWith cmpChar w guess).map (fun x => |x|)).sum = 0 ↔ guess = w := by
    rw [sum_abs_eq_zero]
    exact zipWith_cmpChar_zero w guess (by omega)
  refine ⟨List.zipWith cmpChar w guess, ?_, ?_, ?_⟩
  · by_cases heq : guess = w
    · subst heq
      simp [Game.score_guess, hw, hne, hgl, hmem, hr]
      rw [if_pos (by simpa using hzero.mpr rfl)]
    · have hnz : ¬(((List.zipWith cmpChar w guess).map (fun x => |x|)).sum = 0) :=
        fun h => heq (hzero.mp h)
      simp [Game.score_guess, hw, hne, hgl, hmem, hr, hnz]
  · rw [← hzero, sum_abs_eq_zero]
  · by_cases heq : guess = w
    · subst heq
      simp [Game.score_guess, hw, hne, hgl, hmem, hr]
      rw [if_pos (by simpa using hzero.mpr rfl)]
    · have hnz : ¬(((List.zipWith cmpChar w guess).map (fun x => |x|)).sum = 0) :=
        fun h => heq (hzero.mp h)
      simp [Game.score_guess, hw, hne, hgl, hmem, hr, hnz, heq]

/-- C6, witnessed: guessing the active secret word itself yields an
all-correct outcome and clears the word. -/
theorem C6_witness :
    ((⟨[wa, wb], [wa], 1, some wa⟩ : GameState).word = some wa ∧
      wa.length = 5 ∧ wa.length = 5 ∧ wa ∈ (⟨[wa, wb], [wa], 1, some wa⟩ : GameState).words) ∧
    ∃ rtn, (Game.score_guess ⟨[wa, wb], [wa], 1, some wa⟩ wa).1 = .ok rtn ∧
      ((∀ x ∈ rtn, x = 0) ↔ wa = wa) ∧
      (Game.score_guess ⟨[wa, wb], [wa], 1, some wa⟩ wa).2.word =
        (if wa = wa then none else some wa) :=
  ⟨⟨rfl, rfl, rfl, by decide⟩,
   C6_score_guess_correct ⟨[wa, wb], [wa], 1, some wa⟩ wa wa rfl rfl rfl (by decide)⟩

/-! ### C1 -/

/-- C1: refuted by the code — with secret `"aaaaa"` and allowed guess
`"bbbbb"`, the oracle scores every position `-0.5` (secret < guess, the guess
letter is greater), yet `apply_guess` maps that score to
`[guess+1, upper] = ['c'..'z']`, not to the claimed
`[lower, guess-1] = ['a'..'a']`; the secret letter code 97 is excluded from
the updated range. -/
theorem C1_sign_flip_eval :
    (Game.score_guess ⟨[wb], [wa], 1, some wa⟩ wb).1 =
      .ok (List.replicate 5 (-(1/2) : Rat)) ∧
    BaseAgent.apply_guess (BaseAgent.start_game blankAgent) [wb] wb
        (List.replicate 5 (-(1/2) : Rat)) =
      some ([], ⟨List.replicate 5 (pyRange 99 123),
                 List.replicate 5 (listMean (pyRange 99 123)),
                 List.replicate 5 24, []⟩) ∧
    (97 : Nat) ∉ pyRange 99 123 ∧
    pyRange 99 123 ≠ pyRange 97 98 := by
  refine ⟨?_, ?_, by decide, by decide⟩
  · norm_num +decide [Game.score_guess, wa, wb, buildRtn, cmpChar, List.replicate, abs_of_pos]
  · norm_num +decide [BaseAgent.apply_guess, BaseAgent.start_game, blankAgent, updateLoop,
      stepRange, wb, List.replicate, ALL_LETTERS, pyRange, buildPieces, List.head?_range',
      List.getLast?_range', List.length_range', pieceMatches, reMatch, List.filter,
      List.erase, charB]

/-! ### C3 -/

/-- C3: refuted by the code — `start_game` does reset all 5 ranges to the
full alphabet, but in a legitimate game (secret `"zzzzz"`, allowed guess list
`["aaaaa"]`) the very first `apply_guess` computes the empty range
`list(range(97, 97))` for every position and crashes in `mean([])`
(`apply_guess` returns `none`), violating the non-emptiness invariant. -/
theorem C3_empty_range_eval :
    (BaseAgent.start_game blankAgent).ranges = List.replicate 5 ALL_LETTERS ∧
    (Game.score_guess ⟨[wa], [wz], 1, some wz⟩ wa).1 =
      .ok (List.replicate 5 ((1 : Rat)/2)) ∧
    stepRange ALL_LETTERS 'a' ((1 : Rat)/2) = some [] ∧
    BaseAgent.apply_guess (BaseAgent.start_game blankAgent) [wa] wa
        (List.replicate 5 ((1 : Rat)/2)) = none := by
  refine ⟨rfl, ?_, ?_, ?_⟩
  · norm_num +decide [Game.score_guess, wa, wz, buildRtn, cmpChar, List.replicate, abs_of_pos]
  · norm_num [stepRange, ALL_LETTERS, pyRange, List.head?_range', charA]
  · norm_num +decide [BaseAgent.apply_guess, BaseAgent.start_game, blankAgent, updateLoop,
      stepRange, wa, List.replicate, ALL_LETTERS, pyRange, List.head?_range',
      List.length_range', charA]

/-! ### C2: counterexample -/

/-- C2: the claim quantifies over every state and guess/outcome pair, and
fails as stated — position 0 receives a "correct" outcome (its range
collapses to `[97]`), yet a later `apply_guess` whose guess letter `'z'` lies
outside that range with a positive score rewrites the range to
`['a'..'y']`: not a subset of `[97]` and no longer a singleton. -/
theorem C2_counterexample :
    BaseAgent.apply_guess (BaseAgent.start_game blankAgent) [] wa
        (List.replicate 5 (0 : Rat)) = some ([], singletonSt) ∧
    singletonSt.ranges[0]? = some [97] ∧
    ([97] : List Nat).length = 1 ∧
    BaseAgent.apply_guess singletonSt [] wz
        (List.replicate 5 ((1 : Rat)/2)) =
      some ([], ⟨List.replicate 5 (pyRange 97 122),
                 List.replicate 5 (listMean (pyRange 97 122)),
                 List.replicate 5 25, []⟩) ∧
    (98 : Nat) ∈ pyRange 97 122 ∧
    (98 : Nat) ∉ ([97] : List Nat) ∧
    (pyRange 97 122).length ≠ 1 := by
  refine ⟨?_, rfl, by decide, ?_, by decide, by decide, by decide⟩
  · norm_num +decide [BaseAgent.apply_guess, BaseAgent.start_game, blankAgent, singletonSt,
      updateLoop, stepRange, wa, List.replicate, ALL_LETTERS, pyRange, buildPieces,
      List.head?_range', List.getLast?_range', List.length_range', charA]
  · norm_num +decide [BaseAgent.apply_guess, singletonSt, updateLoop, stepRange, wz,
      List.replicate, pyRange, buildPieces, List.head?_range', List.getLast?_range',
      List.length_range', charZ]

/-! ### C5: counterexample -/

/-- C5: refuted as stated — `list.remove` deletes only the first occurrence
of the guess, so when the input candidate list contains the just-played guess
twice (here `["aaaaa", "aaaaa"]`, guess `"aaaaa"`, all-correct outcome), the
returned list still contains the guess. -/
theorem C5_counterexample :
    BaseAgent.apply_guess (BaseAgent.start_game blankAgent) [wa, wa] wa
        (List.replicate 5 (0 : Rat)) = some ([wa], singletonSt) ∧
    wa ∈ [wa] := by
  refine ⟨?_, by decide⟩
  norm_num +decide [BaseAgent.apply_guess, BaseAgent.start_game, blankAgent, singletonSt,
    updateLoop, stepRange, wa, List.replicate, ALL_LETTERS, pyRange, buildPieces,
    List.head?_range', List.getLast?_range', List.length_range', charA, pieceMatches,
    reMatch, List.filter, List.erase]

/-! ### Helper lemmas about ranges, the update loop and the pattern -/

/-- Membership in a Python range. -/
theorem mem_pyRange {x a b : Nat} : x ∈ pyRange a b ↔ a ≤ x ∧ x < b := by
  rw [pyRange, List.mem_range'_1]; omega

/-- Head of a nonempty Python range. -/
theorem pyRange_head? {a b : Nat} (h : a < b) : (pyRange a b).head? = some a := by
  rw [pyRange, List.head?_range', if_neg (by omega)]

/-- Last element of a nonempty Python range. -/
theorem pyRange_getLast? {a b : Nat} (h : a < b) :
    (pyRange a b).getLast? = some (b - 1) := by
  rw [pyRange, List.getLast?_range', if_neg (by omega)]
  congr 1; omega

/-- Length of a Python range. -/
theorem pyRange_length (a b : Nat) : (pyRange a b).length = b - a := by
  rw [pyRange, List.length_range']

/-- A singleton list is the one-step Python range. -/
theorem singleton_eq_pyRange (x : Nat) : [x] = pyRange x (x + 1) := by
  rw [pyRange]
  have h : x + 1 - x = 1 := by omega
  rw [h]
  rfl

/-- Every range produced by a successful `updateLoop` at a guess position is
a nonempty contiguous interval whose stored length is its actual length. -/
theorem updateLoop_shape : ∀ (g : List Char) (sc : List Rat) (rs : List (List Nat))
    (ms : List Rat) (ls : List Nat) rs' ms' ls',
    updateLoop g sc rs ms ls = some (rs', ms', ls') →
    ∀ i, i < g.length →
      ∃ r, rs'[i]? = some r ∧ ls'[i]? = some r.length ∧ ∃ a b, a < b ∧ r = pyRange a b
  | [], _, _, _, _, _, _, _, _, i, hi => absurd hi (by simp)
  | c :: cs, [], _, _, _, _, _, _, h, _, _ => by simp [updateLoop] at h
  | c :: cs, sc₀ :: scs, [], _, _, _, _, _, h, _, _ => by simp [updateLoop] at h
  | c :: cs, sc₀ :: scs, r :: rs, [], _, _, _, _, h, _, _ => by simp [updateLoop] at h
  | c :: cs, sc₀ :: scs, r :: rs, m :: ms, [], _, _, _, h, _, _ => by
    simp [updateLoop] at h
  | c :: cs, sc₀ :: scs, r :: rs, m :: ms, l :: ls, rs', ms', ls', h, i, hi => by
    rw [updateLoop] at h
    cases hstep : stepRange r c sc₀ with
    | none => simp [hstep] at h
    | some r' =>
      simp only [hstep] at h
      by_cases hlen : r'.length = 0
      · rw [if_pos hlen] at h; exact absurd h (by simp)
      · rw [if_neg hlen] at h
        cases hrec : updateLoop cs scs rs ms ls with
        | none => simp [hrec] at h
        | some t =>
          obtain ⟨rs₁, ms₁, ls₁⟩ := t
          simp only [hrec, Option.some.injEq, Prod.mk.injEq] at h
          obtain ⟨h1, h2, h3⟩ := h
          cases i with
          | zero =>
            refine ⟨r', by simp [← h1], by simp [← h3], ?_⟩
            rw [stepRange] at hstep
            by_cases hp : (0 : Rat) < sc₀
            · rw [if_pos hp] at hstep
              cases hh : r.head? with
              | none => rw [hh] at hstep; exact absurd hstep (by simp)
              | some lo =>
                rw [hh] at hstep
                simp only [Option.map_some', Option.some.injEq] at hstep
                refine ⟨lo, c.toNat, ?_, hstep.symm⟩
                by_contra hab
                exact hlen (by rw [← hstep, pyRange_length]; omega)
            · rw [if_neg hp] at hstep
              by_cases hn : sc₀ < 0
              · rw [if_pos hn] at hstep
                cases hh : r.getLast? with
                | none => rw [hh] at hstep; exact absurd hstep (by simp)
                | some hi' =>
                  rw [hh] at hstep
                  simp only [Option.map_some', Option.some.injEq] at hstep
                  refine ⟨c.toNat + 1, hi' + 1, ?_, hstep.symm⟩
                  by_contra hab
                  exact hlen (by rw [← hstep, pyRange_length]; omega)
              · rw [if_neg hn] at hstep
                simp only [Option.some.injEq] at hstep
                exact ⟨c.toNat, c.toNat + 1, by omega, by rw [← hstep, singleton_eq_pyRange]⟩
          | succ j =>
            have := updateLoop_shape cs scs rs ms ls rs₁ ms₁ ls₁ hrec j (by simpa using hi)
            obtain ⟨r₀, hr0, hl0, hsh⟩ := this
            exact ⟨r₀, by simp [← h1, hr0], by simp [← h3, hl0], hsh⟩

/-- Every word matched by the pattern built from interval-shaped ranges has
one letter per piece, each within its position's range. -/
theorem buildPieces_matches : ∀ (n : Nat) (rs : List (List Nat)) (ls : List Nat)
    (ps : List Piece),
    buildPieces n rs ls = some ps →
    (∀ i, i < n →
      ∃ r, rs[i]? = some r ∧ ls[i]? = some r.length ∧ ∃ a b, a < b ∧ r = pyRange a b) →
    ∀ w : Word, reMatch ps w = true →
      w.length = n ∧ ∀ (i : Nat) (c : Char), w[i]? = some c →
        ∃ r, rs[i]? = some r ∧ c.toNat ∈ r
  | 0, rs, ls, ps, h, _, w, hm => by
    simp only [buildPieces, Option.some.injEq] at h
    subst h
    cases w with
    | nil =>
      refine ⟨rfl, ?_⟩
      intro i c hc
      simp at hc
    | cons c cs => simp [reMatch] at hm
  | n + 1, [], ls, ps, h, hshape, w, hm => by
    obtain ⟨r, hr, _⟩ := hshape 0 (by omega)
    simp at hr
  | n + 1, rhd :: rs, [], ps, h, hshape, w, hm => by
    obtain ⟨r', _, hl, _⟩ := hshape 0 (by omega)
    simp at hl
  | n + 1, rhd :: rs, l :: ls, ps, h, hshape, w, hm => by
    obtain ⟨r₀, hr0, hl0, a, b, hab, hsh⟩ := hshape 0 (by omega)
    simp only [List.getElem?_cons_zero, Option.some.injEq] at hr0 hl0
    cases hr0
    have hlen : l = rhd.length := by simpa using hl0
    rw [buildPieces] at h
    by_cases hl1 : l = 1
    · rw [if_pos hl1] at h
      have hb : b = a + 1 := by
        have := pyRange_length a b
        rw [← hsh] at this
        omega
      have hra : rhd = [a] := by
        rw [hsh, hb, ← singleton_eq_pyRange]
      cases hh : rhd.head? with
      | none => simp [hh] at h
      | some x =>
        simp only [hh] at h
        cases hrec : buildPieces n rs ls with
        | none => simp [hrec] at h
        | some ps₁ =>
          simp only [hrec, Option.map_some', Option.some.injEq] at h
          subst h
          have hx : a = x := by rw [hra] at hh; simpa using hh
          cases w with
          | nil => simp [reMatch] at hm
          | cons c cs =>
            simp only [reMatch, Bool.and_eq_true] at hm
            obtain ⟨hpm, hrest⟩ := hm
            have htail := buildPieces_matches n rs ls ps₁ hrec
              (fun i hi => by
                obtain ⟨r', hr', hl', hsh'⟩ := hshape (i + 1) (by omega)
                exact ⟨r', by simpa using hr', by simpa using hl', hsh'⟩) cs hrest
            refine ⟨by simpa using htail.1, ?_⟩
            intro i ch hc
            cases i with
            | zero =>
              simp only [List.getElem?_cons_zero, Option.some.injEq] at hc
              subst hc
              simp only [pieceMatches, beq_iff_eq] at hpm
              refine ⟨rhd, by simp, ?_⟩
              rw [hra, hpm, ← hx]
              exact List.mem_singleton.mpr rfl
            | succ j =>
              obtain ⟨r', hr', hmem⟩ := htail.2 j ch (by simpa using hc)
              exact ⟨r', by simpa using hr', hmem⟩
    · rw [if_neg hl1] at h
      cases hh : rhd.head? with
      | none =>
        rw [hsh, pyRange_head? hab] at hh
        exact absurd hh (by simp)
      | some a' =>
        cases hg : rhd.getLast? with
        | none =>
          rw [hsh, pyRange_getLast? hab] at hg
          exact absurd hg (by simp)
        | some b' =>
          simp only [hh, hg] at h
          cases hrec : buildPieces n rs ls with
          | none => simp [hrec] at h
          | some ps₁ =>
            simp only [hrec, Option.map_some', Option.some.injEq] at h
            subst h
            have ha' : a = a' := by
              rw [hsh, pyRange_head? hab] at hh; simpa using hh
            have hb' : b - 1 = b' := by
              rw [hsh, pyRange_getLast? hab] at hg; simpa using hg
            cases w with
            | nil => simp [reMatch] at hm
            | cons c cs =>
              simp only [reMatch, Bool.and_eq_true] at hm
              obtain ⟨hpm, hrest⟩ := hm
              have htail := buildPieces_matches n rs ls ps₁ hrec
                (fun i hi => by
                  obtain ⟨r', hr', hl', hsh'⟩ := hshape (i + 1) (by omega)
                  exact ⟨r', by simpa using hr', by simpa using hl', hsh'⟩) cs hrest
              refine ⟨by simpa using htail.1, ?_⟩
              intro i ch hc
              cases i with
              | zero =>
                simp only [List.getElem?_cons_zero, Option.some.injEq] at hc
                subst hc
                simp only [pieceMatches, Bool.and_eq_true, decide_eq_true_eq] at hpm
                refine ⟨rhd, by simp, ?_⟩
                rw [hsh, mem_pyRange]
                omega
              | succ j =>
                obtain ⟨r', hr', hmem⟩ := htail.2 j ch (by simpa using hc)
                exact ⟨r', by simpa using hr', hmem⟩

/-- An interval-shaped list is the Python range over its own bounds. -/
theorem isIntervalB_spec {r : List Nat} (h : isIntervalB r = true) :
    r = pyRange (r.headD 0) (r.headD 0 + r.length) := by
  rw [isIntervalB] at h
  exact beq_iff_eq.mp h

/-- One range update shrinks an interval range when the guess letter lies in
it, and preserves a singleton exactly (whenever the update survives the
emptiness check). -/
theorem stepRange_shrink {a b : Nat} {c : Char} {sc : Rat} {r' : List Nat}
    (hmem : c.toNat ∈ pyRange a b)
    (hstep : stepRange (pyRange a b) c sc = some r')
    (hne : r'.length ≠ 0) :
    (∀ x ∈ r', x ∈ pyRange a b) ∧ ((pyRange a b).length = 1 → r' = pyRange a b) := by
  rw [mem_pyRange] at hmem
  have hab : a < b := by omega
  rw [stepRange] at hstep
  by_cases hp : (0 : Rat) < sc
  · rw [if_pos hp, pyRange_head? hab] at hstep
    simp only [Option.map_some', Option.some.injEq] at hstep
    subst hstep
    constructor
    · intro x hx
      rw [mem_pyRange] at hx ⊢
      omega
    · intro h1
      rw [pyRange_length] at h1
      have hca : c.toNat = a := by omega
      rw [pyRange_length] at hne
      omega
  · rw [if_neg hp] at hstep
    by_cases hn : sc < 0
    · rw [if_pos hn, pyRange_getLast? hab] at hstep
      simp only [Option.map_some', Option.some.injEq] at hstep
      subst hstep
      constructor
      · intro x hx
        rw [mem_pyRange] at hx ⊢
        omega
      · intro h1
        rw [pyRange_length] at h1
        have hca : c.toNat = a := by omega
        rw [pyRange_length] at hne
        omega
    · rw [if_neg hn] at hstep
      simp only [Option.some.injEq] at hstep
      subst hstep
      constructor
      · intro x hx
        simp only [List.mem_singleton] at hx
        subst hx
        rw [mem_pyRange]
        omega
      · intro h1
        rw [pyRange_length] at h1
        have hca : c.toNat = a := by omega
        rw [hca, singleton_eq_pyRange]
        congr 1
        omega

/-- Through a successful `updateLoop`, when every range is a contiguous
ascending interval and every guess letter lies in its position's range, every
updated range is a subset of the old one and singleton ranges are kept
exactly. -/
theorem updateLoop_shrink : ∀ (g : List Char) (sc : List Rat) (rs : List (List Nat))
    (ms : List Rat) (ls : List Nat) rs' ms' ls',
    updateLoop g sc rs ms ls = some (rs', ms', ls') →
    (∀ (i : Nat) r, rs[i]? = some r → isIntervalB r = true) →
    (∀ (i : Nat) c r, g[i]? = some c → rs[i]? = some r → c.toNat ∈ r) →
    ∀ (i : Nat) r r', rs[i]? = some r → rs'[i]? = some r' →
      (∀ x ∈ r', x ∈ r) ∧ (r.length = 1 → r' = r)
  | [], _, rs, _, _, rs', _, _, h, _, _, i, r, r', hr, hr' => by
    simp only [updateLoop, Option.some.injEq, Prod.mk.injEq] at h
    obtain ⟨h1, _, _⟩ := h
    subst h1
    rw [hr] at hr'
    cases hr'
    exact ⟨fun x hx => hx, fun _ => rfl⟩
  | c :: cs, [], _, _, _, _, _, _, h, _, _, _, _, _, _, _ => by simp [updateLoop] at h
  | c :: cs, sc₀ :: scs, [], _, _, _, _, _, h, _, _, _, _, _, _, _ => by
    simp [updateLoop] at h
  | c :: cs, sc₀ :: scs, r₁ :: rs, [], _, _, _, _, h, _, _, _, _, _, _, _ => by
    simp [updateLoop] at h
  | c :: cs, sc₀ :: scs, r₁ :: rs, m :: ms, [], _, _, _, h, _, _, _, _, _, _, _ => by
    simp [updateLoop] at h
  | c :: cs, sc₀ :: scs, r₁ :: rs, m :: ms, l :: ls, rs', ms', ls', h, hint, hin,
      i, r, r', hr, hr' => by
    rw [updateLoop] at h
    cases hstep : stepRange r₁ c sc₀ with
    | none => simp [hstep] at h
    | some r₀ =>
      simp only [hstep] at h
      by_cases hlen : r₀.length = 0
      · rw [if_pos hlen] at h; exact absurd h (by simp)
      · rw [if_neg hlen] at h
        cases hrec : updateLoop cs scs rs ms ls with
        | none => simp [hrec] at h
        | some t =>
          obtain ⟨rs₁, ms₁, ls₁⟩ := t
          simp only [hrec, Option.some.injEq, Prod.mk.injEq] at h
          obtain ⟨h1, _, _⟩ := h
          cases i with
          | zero =>
            simp only [List.getElem?_cons_zero, Option.some.injEq] at hr
            cases hr
            rw [← h1] at hr'
            simp only [List.getElem?_cons_zero, Option.some.injEq] at hr'
            cases hr'
            have hshape := isIntervalB_spec (hint 0 r₁ (by simp))
            have hmem : c.toNat ∈ r₁ := hin 0 c r₁ (by simp) (by simp)
            rw [hshape] at hstep hmem ⊢
            exact stepRange_shrink hmem hstep hlen
          | succ j =>
            rw [← h1] at hr'
            simp only [List.getElem?_cons_succ] at hr hr'
            exact updateLoop_shrink cs scs rs ms ls rs₁ ms₁ ls₁ hrec
              (fun i r h => hint (i + 1) r (by simpa using h))
              (fun i c r hg hrg => hin (i + 1) c r (by simpa using hg) (by simpa using hrg))
              j r r' hr hr'

/-! ### C2: amended -/

/-- C2 (amended): for a candidate state whose position ranges are contiguous
ascending intervals and a guess whose letters all lie within their positions'
pre-update ranges, a successful `apply_guess` shrinks every range to a subset
of its pre-update range, and a position whose range was already a singleton
(as after receiving a "correct" outcome) still holds exactly that singleton. -/
theorem C2_shrink_amended (st : AgentState) (win : List Word) (guess : Word)
    (score : List Rat) (out : List Word × AgentState)
    (hint : ∀ (i : Nat) r, st.ranges[i]? = some r → isIntervalB r = true)
    (hin : ∀ (i : Nat) c r, guess[i]? = some c → st.ranges[i]? = some r → c.toNat ∈ r)
    (hok : BaseAgent.apply_guess st win guess score = some out) :
    ∀ (i : Nat) r r', st.ranges[i]? = some r → out.2.ranges[i]? = some r' →
      (∀ x ∈ r', x ∈ r) ∧ (r.length = 1 → r' = r) := by
  rw [BaseAgent.apply_guess] at hok
  cases hup : updateLoop guess score st.ranges st.means st.lengths with
  | none => simp [hup] at hok
  | some t =>
    obtain ⟨rs, ms, ls⟩ := t
    simp only [hup] at hok
    cases hbp : buildPieces 5 rs ls with
    | none => simp [hbp] at hok
    | some pieces =>
      simp only [hbp, Option.some.injEq] at hok
      subst hok
      exact updateLoop_shrink guess score st.ranges st.means st.lengths
        rs ms ls hup hint hin

/-- C2 (amended), witnessed at the freshly reset state with guess `"aaaaa"`
and an all-correct outcome. -/
theorem C2_witness :
    (∀ (i : Nat) r, (BaseAgent.start_game blankAgent).ranges[i]? = some r →
      isIntervalB r = true) ∧
    (∀ (i : Nat) c r, (wa : Word)[i]? = some c →
      (BaseAgent.start_game blankAgent).ranges[i]? = some r → c.toNat ∈ r) ∧
    (∀ (i : Nat) r r', (BaseAgent.start_game blankAgent).ranges[i]? = some r →
      (([] : List Word), singletonSt).2.ranges[i]? = some r' →
      (∀ x ∈ r', x ∈ r) ∧ (r.length = 1 → r' = r)) := by
  have hint : ∀ (i : Nat) r, (BaseAgent.start_game blankAgent).ranges[i]? = some r →
      isIntervalB r = true := by
    intro i r hr
    simp only [BaseAgent.start_game, List.getElem?_replicate] at hr
    by_cases hi : i < 5
    · rw [if_pos hi] at hr
      cases hr
      decide
    · rw [if_neg hi] at hr
      exact absurd hr (by simp)
  have hin : ∀ (i : Nat) c r, (wa : Word)[i]? = some c →
      (BaseAgent.start_game blankAgent).ranges[i]? = some r → c.toNat ∈ r := by
    intro i c r hg hr
    simp only [BaseAgent.start_game, List.getElem?_replicate] at hr
    by_cases hi : i < 5
    · rw [if_pos hi] at hr
      cases hr
      have hc : c = 'a' := by
        have : (wa : Word) = List.replicate 5 'a' := by decide
        rw [this, List.getElem?_replicate, if_pos hi] at hg
        cases hg
        rfl
      rw [hc]
      decide
    · rw [if_neg hi] at hr
      exact absurd hr (by simp)
  have hok : BaseAgent.apply_guess (BaseAgent.start_game blankAgent) [] wa
      (List.replicate 5 (0 : Rat)) = some ([], singletonSt) := by
    norm_num +decide [BaseAgent.apply_guess, BaseAgent.start_game, blankAgent, singletonSt,
      updateLoop, stepRange, wa, List.replicate, ALL_LETTERS, pyRange, buildPieces,
      List.head?_range', List.getLast?_range', List.length_range', charA]
  exact ⟨hint, hin,
    C2_shrink_amended (BaseAgent.start_game blankAgent) [] wa
      (List.replicate 5 (0 : Rat)) ([], singletonSt) hint hin hok⟩

/-- `list.remove` on a list that held the element at most once eliminates it. -/
theorem notMem_erase_of_count_le_one {l : List Word} {a : Word}
    (h : l.count a ≤ 1) : a ∉ l.erase a :=
  List.count_eq_zero.mp (by rw [List.count_erase_self]; omega)

/-! ### C5: amended -/

/-- C5 (amended): for every candidate list in which the 5-letter guess occurs
at most once, the list returned by `apply_guess` does not contain the guess;
and unconditionally every word it contains has every letter inside the
corresponding position's post-update range. -/
theorem C5_filter_amended (st : AgentState) (win : List Word) (guess : Word)
    (score : List Rat) (out : List Word × AgentState) (hg : guess.length = 5)
    (hok : BaseAgent.apply_guess st win guess score = some out) :
    (win.count guess ≤ 1 → guess ∉ out.1) ∧
    (∀ w ∈ out.1, ∀ (i : Nat) (c : Char), w[i]? = some c →
      ∃ r, out.2.ranges[i]? = some r ∧ c.toNat ∈ r) := by
  rw [BaseAgent.apply_guess] at hok
  cases hup : updateLoop guess score st.ranges st.means st.lengths with
  | none => simp [hup] at hok
  | some t =>
    obtain ⟨rs, ms, ls⟩ := t
    simp only [hup] at hok
    cases hbp : buildPieces 5 rs ls with
    | none => simp [hbp] at hok
    | some pieces =>
      simp only [hbp, Option.some.injEq] at hok
      subst hok
      have hshape : ∀ i, i < 5 →
          ∃ r, rs[i]? = some r ∧ ls[i]? = some r.length ∧
            ∃ a b, a < b ∧ r = pyRange a b :=
        fun i hi => updateLoop_shape guess score st.ranges st.means st.lengths
          rs ms ls hup i (by omega)
      constructor
      · intro hcount
        apply notMem_erase_of_count_le_one
        exact le_trans ((List.filter_sublist win).count_le guess) hcount
      · intro w hw i c hc
        have hwf : w ∈ win.filter (fun w => reMatch pieces w) :=
          List.mem_of_mem_erase hw
        have hmatch : reMatch pieces w = true := (List.mem_filter.mp hwf).2
        obtain ⟨_, hmem⟩ :=
          buildPieces_matches 5 rs ls pieces hbp hshape w hmatch
        exact hmem i c hc

/-- C5 (amended), witnessed: a list containing the guess once, plus an
unrelated word, is filtered to the empty list by an all-correct outcome. -/
theorem C5_witness :
    wa.length = 5 ∧
    BaseAgent.apply_guess (BaseAgent.start_game blankAgent) [wa, wb] wa
        (List.replicate 5 (0 : Rat)) = some ([], singletonSt) ∧
    (([wa, wb] : List Word).count wa ≤ 1 → wa ∉ ([] : List Word)) ∧
    (∀ w ∈ ([] : List Word), ∀ (i : Nat) (c : Char), w[i]? = some c →
      ∃ r, singletonSt.ranges[i]? = some r ∧ c.toNat ∈ r) := by
  have hok : BaseAgent.apply_guess (BaseAgent.start_game blankAgent) [wa, wb] wa
      (List.replicate 5 (0 : Rat)) = some ([], singletonSt) := by
    norm_num +decide [BaseAgent.apply_guess, BaseAgent.start_game, blankAgent, singletonSt,
      updateLoop, stepRange, wa, wb, List.replicate, ALL_LETTERS, pyRange, buildPieces,
      List.head?_range', List.getLast?_range', List.length_range', charA, pieceMatches,
      reMatch, List.filter, List.erase]
  exact ⟨rfl, hok,
    (C5_filter_amended (BaseAgent.start_game blankAgent) [wa, wb] wa
      (List.replicate 5 (0 : Rat)) ([], singletonSt) rfl hok).1,
    (C5_filter_amended (BaseAgent.start_game blankAgent) [wa, wb] wa
      (List.replicate 5 (0 : Rat)) ([], singletonSt) rfl hok).2⟩

/-! ### Helper lemmas about the deterministic selector -/

/-- The weighting comprehension succeeds and pairs each word with its score
whenever every score is defined. -/
theorem weigh_eq_map (means : List Rat) (lengths : List Nat) (f : Word → Rat) :
    ∀ (l : List Word), (∀ w ∈ l, SimpleAgent.score means lengths w = some (f w)) →
      weigh means lengths l = some (l.map (fun x => (x, f x)))
  | [], _ => rfl
  | x :: xs, h => by
    rw [weigh, h x (List.mem_cons_self x xs),
      weigh_eq_map means lengths f xs (fun w hw => h w (List.mem_cons_of_mem x hw))]
    rfl

/-- `find?` only depends on the predicate's values on the list. -/
theorem find?_congr' : ∀ (l : List α) (p q : α → Bool),
    (∀ a ∈ l, p a = q a) → l.find? p = l.find? q
  | [], _, _, _ => rfl
  | a :: as, p, q, h => by
    rw [List.find?_cons, List.find?_cons, h a (List.mem_cons_self a as),
      find?_congr' as p q (fun b hb => h b (List.mem_cons_of_mem a hb))]

/-- `all` over a mapped list. -/
theorem all_map' (g : α → β) (p : β → Bool) :
    ∀ (l : List α), (l.map g).all p = l.all (fun a => p (g a))
  | [] => rfl
  | a :: as => by rw [List.map_cons, List.all_cons, List.all_cons, all_map' g p as]

/-- The head of the stable descending sort is the first maximal element of
the input list. -/
theorem sortWeighted_head : ∀ (l : List (Word × Rat)), l ≠ [] →
    ∃ m, l.find? (fun x => l.all (fun y => decide (y.2 ≤ x.2))) = some m ∧
      (sortWeighted l).head? = some m
  | [], h => absurd rfl h
  | [x], _ => by
    refine ⟨x, ?_, rfl⟩
    rw [List.find?_cons_of_pos]
    simp
  | x :: y :: ys, _ => by
    obtain ⟨m, hfind, hhead⟩ := sortWeighted_head (y :: ys) (by simp)
    have hm_mem : m ∈ y :: ys := List.mem_of_find?_eq_some hfind
    have hm_max : ∀ z ∈ y :: ys, z.2 ≤ m.2 := by
      have := List.find?_some hfind
      simp only [List.all_eq_true, decide_eq_true_eq] at this
      exact this
    obtain ⟨tail, htail⟩ : ∃ t, sortWeighted (y :: ys) = m :: t := by
      cases hsw : sortWeighted (y :: ys) with
      | nil => rw [hsw] at hhead; exact absurd hhead (by simp)
      | cons a t =>
        rw [hsw] at hhead
        simp only [List.head?_cons, Option.some.injEq] at hhead
        exact ⟨t, by rw [hhead]⟩
    by_cases hc : m.2 ≤ x.2
    · have hpx : ((x :: y :: ys).all fun w => decide (w.2 ≤ x.2)) = true := by
        rw [List.all_eq_true]
        intro z hz
        rcases List.mem_cons.mp hz with rfl | hz
        · simp
        · exact decide_eq_true (le_trans (hm_max z hz) hc)
      refine ⟨x, ?_, ?_⟩
      · exact List.find?_cons_of_pos _ hpx
      · show (sortInsert x (sortWeighted (y :: ys))).head? = some x
        rw [htail, sortInsert, if_pos hc]
        rfl
    · have hxm : x.2 < m.2 := not_le.mp hc
      have hpx : ((x :: y :: ys).all fun w => decide (w.2 ≤ x.2)) = false := by
        rcases Bool.eq_false_or_eq_true ((x :: y :: ys).all fun w => decide (w.2 ≤ x.2))
          with hb | hb
        · rw [List.all_eq_true] at hb
          exact absurd (decide_eq_true_eq.mp (hb m (List.mem_cons_of_mem x hm_mem))) hc
        · exact hb
      refine ⟨m, ?_, ?_⟩
      · rw [List.find?_cons_of_neg _ (by simp [hpx]), ← hfind]
        apply find?_congr'
        intro z hz
        rw [List.all_cons]
        cases hz2 : ((y :: ys).all fun w => decide (w.2 ≤ z.2)) with
        | false => rw [Bool.and_false]
        | true =>
          have hmz : m.2 ≤ z.2 :=
            decide_eq_true_eq.mp ((List.all_eq_true.mp hz2) m hm_mem)
          rw [decide_eq_true (le_trans (le_of_lt hxm) hmz), Bool.true_and]
      · show (sortInsert x (sortWeighted (y :: ys))).head? = some m
        rw [htail, sortInsert, if_neg hc]
        rfl

/-! ### C7 -/

/-- C7: on a non-empty candidate list whose scores are all defined, the
deterministic selector returns exactly the first element of the list whose
score — the negated sum of `|mean - code| / cardinality` over its letters —
is maximal (ties resolved by input order, by stability of the sort). -/
theorem C7_select_first_max (means : List Rat) (lengths : List Nat)
    (guesses : List Word) (f : Word → Rat) (hne : guesses ≠ [])
    (hsc : ∀ w ∈ guesses, SimpleAgent.score means lengths w = some (f w)) :
    SimpleAgent.select_guess means lengths guesses = specFirstMaximal f guesses := by
  rw [SimpleAgent.select_guess, weigh_eq_map means lengths f guesses hsc]
  have hLne : guesses.map (fun x => (x, f x)) ≠ [] := by
    cases guesses with
    | nil => exact absurd rfl hne
    | cons a as => simp
  obtain ⟨m, hfind, hhead⟩ := sortWeighted_head (guesses.map (fun x => (x, f x))) hLne
  rw [List.find?_map] at hfind
  cases hf : guesses.find?
      ((fun x => (guesses.map (fun x => (x, f x))).all (fun y => decide (y.2 ≤ x.2))) ∘
        (fun x => (x, f x))) with
  | none => rw [hf] at hfind; exact absurd hfind (by simp)
  | some g₀ =>
    rw [hf] at hfind
    simp only [Option.map_some', Option.some.injEq] at hfind
    have hm1 : m.1 = g₀ := by rw [← hfind]
    show ((sortWeighted (guesses.map fun x => (x, f x))).head?).map Prod.fst =
      specFirstMaximal f guesses
    rw [hhead]
    simp only [Option.map_some', hm1]
    rw [specFirstMaximal, ← hf]
    apply find?_congr'
    intro a ha
    show (List.map (fun x => (x, f x)) guesses).all (fun y => decide (y.2 ≤ f a)) =
      guesses.all (fun y => decide (f y ≤ f a))
    rw [all_map' (fun x => (x, f x)) (fun y => decide (y.2 ≤ f a)) guesses]

/-- The word `"mmmmm"`. -/
def wm : Word := ['m', 'm', 'm', 'm', 'm']

/-- C7, witnessed on the fresh tracker state with candidates
`["aaaaa", "mmmmm"]`: the selector picks the word closest to the mean. -/
theorem C7_witness :
    ([wa, wm] : List Word) ≠ [] ∧
    (∀ w ∈ ([wa, wm] : List Word),
      SimpleAgent.score (List.replicate 5 (listMean ALL_LETTERS)) (List.replicate 5 26) w =
        some ((SimpleAgent.score (List.replicate 5 (listMean ALL_LETTERS))
          (List.replicate 5 26) w).getD 0)) ∧
    SimpleAgent.select_guess (List.replicate 5 (listMean ALL_LETTERS))
        (List.replicate 5 26) [wa, wm] =
      specFirstMaximal
        (fun w => (SimpleAgent.score (List.replicate 5 (listMean ALL_LETTERS))
          (List.replicate 5 26) w).getD 0) [wa, wm] := by
  have hsc : ∀ w ∈ ([wa, wm] : List Word),
      SimpleAgent.score (List.replicate 5 (listMean ALL_LETTERS)) (List.replicate 5 26) w =
        some ((SimpleAgent.score (List.replicate 5 (listMean ALL_LETTERS))
          (List.replicate 5 26) w).getD 0) := by
    intro w hw
    rcases List.mem_cons.mp hw with rfl | hw2
    · rfl
    rcases List.mem_cons.mp hw2 with rfl | hw3
    · rfl
    exact absurd hw3 (by simp)
  exact ⟨by simp, hsc,
    C7_select_first_max (List.replicate 5 (listMean ALL_LETTERS)) (List.replicate 5 26)
      [wa, wm] _ (by simp) hsc⟩

/-! ### C9 -/

/-- C9: called on the empty candidate list, the deterministic selector's
`weighted[0][0]` and the randomized selector's `random.choice` both raise
`IndexError` (modelled `none`) for every tracker state and every RNG draw,
instead of returning a word. -/
theorem C9_select_guess_empty :
    (∀ means lengths, SimpleAgent.select_guess means lengths [] = none) ∧
    (∀ idx, RandomAgent.select_guess idx [] = none) := by
  exact ⟨fun _ _ => rfl, fun _ => rfl⟩

/-! ### Helper lemmas about the play loop -/

/-- With no limit and a `play_once` that preserves the oracle's answers list
and index, the while-loop runs one iteration per remaining answer and
accumulates exactly the outcomes of `runGames`. -/
theorem playLoop_run (playOnce : GameState → GameOutcome × GameState)
    (hpres : ∀ s, ((playOnce s).2).answers = s.answers ∧
      ((playOnce s).2).index = s.index) :
    ∀ (m : Nat) (s : GameState) (count : Nat) (hist : List GameOutcome),
      s.answers.length = s.index + m →
      ∃ s', playLoop playOnce (m + 1) s 0 count hist =
        some (hist ++ runGames playOnce m s, count + m, s')
  | 0, s, count, hist, h => by
    have hidx : s.index = s.answers.length := by omega
    refine ⟨s, ?_⟩
    rw [playLoop, Game.start, if_pos hidx]
    simp [runGames]
  | m + 1, s, count, hist, h => by
    have hidx : s.index ≠ s.answers.length := by omega
    have hlt : s.index < s.answers.length := by omega
    obtain ⟨w, hw⟩ : ∃ w, s.answers[s.index]? = some w :=
      ⟨s.answers[s.index], (List.getElem?_eq_some).mpr ⟨hlt, rfl⟩⟩
    have hstart : Game.start s =
        some (true, { s with word := some w, index := s.index + 1 }) := by
      rw [Game.start, if_neg hidx, hw]
    have hnext : (playOnce { s with word := some w, index := s.index + 1 }).2.answers.length =
        (playOnce { s with word := some w, index := s.index + 1 }).2.index + m := by
      rw [(hpres _).1, (hpres _).2]
      simp only
      omega
    obtain ⟨s', hs'⟩ := playLoop_run playOnce hpres m
      (playOnce { s with word := some w, index := s.index + 1 }).2 (count + 1)
      (hist ++ [(playOnce { s with word := some w, index := s.index + 1 }).1]) hnext
    refine ⟨s', ?_⟩
    rw [playLoop, hstart]
    simp only [ne_eq, not_true_eq_false, false_and, if_false]
    rw [hs', runGames, hstart]
    simp only [List.append_assoc, List.singleton_append]
    have hcnt : count + 1 + m = count + (m + 1) := by omega
    rw [hcnt]

/-- `runGames` produces one outcome per remaining answer. -/
theorem runGames_length (playOnce : GameState → GameOutcome × GameState)
    (hpres : ∀ s, ((playOnce s).2).answers = s.answers ∧
      ((playOnce s).2).index = s.index) :
    ∀ (m : Nat) (s : GameState), s.answers.length = s.index + m →
      (runGames playOnce m s).length = m
  | 0, s, _ => rfl
  | m + 1, s, h => by
    have hidx : s.index ≠ s.answers.length := by omega
    have hlt : s.index < s.answers.length := by omega
    obtain ⟨w, hw⟩ : ∃ w, s.answers[s.index]? = some w :=
      ⟨s.answers[s.index], (List.getElem?_eq_some).mpr ⟨hlt, rfl⟩⟩
    have hstart : Game.start s =
        some (true, { s with word := some w, index := s.index + 1 }) := by
      rw [Game.start, if_neg hidx, hw]
    rw [runGames, hstart]
    simp only [List.length_cons]
    rw [runGames_length playOnce hpres m _ (by rw [(hpres _).1, (hpres _).2]; simp only; omega)]

/-! ### C8 -/

/-- C8: for an oracle with `k ≥ 1` answers (index at the start) and a
`play_once` that does not disturb the answers sequence, `play` with no limit
plays exactly `k` games; the returned `count` is `k` and `result`,
`guess_avg` and `score_avg` are the arithmetic means over the `k` recorded
game outcomes of the success flag, the guess count and the cumulative
score. -/
theorem C8_play_aggregates (playOnce : GameState → GameOutcome × GameState)
    (s : GameState) (k : Nat)
    (hpres : ∀ s', ((playOnce s').2).answers = s'.answers ∧
      ((playOnce s').2).index = s'.index)
    (hidx : s.index = 0) (hk : s.answers.length = k) (hk1 : 1 ≤ k) :
    ∃ r, BaseAgent.play playOnce s 0 = some (.ok r) ∧
      r.count = k ∧ r.history.length = k ∧
      r.result = (r.history.map (fun o => o.result)).sum / (k : Rat) ∧
      r.guess_avg = (r.history.map (fun o => (o.guesses.length : Rat))).sum / (k : Rat) ∧
      r.score_avg = (r.history.map (fun o => o.score)).sum / (k : Rat) := by
  obtain ⟨s', hs'⟩ := playLoop_run playOnce hpres k s 0 [] (by omega)
  have hfuel : s.answers.length - s.index + 1 = k + 1 := by omega
  have hlen : (runGames playOnce k s).length = k :=
    runGames_length playOnce hpres k s (by omega)
  refine ⟨{
    history := runGames playOnce k s
    count := (runGames playOnce k s).length
    guess_avg := ((runGames playOnce k s).map (fun o => (o.guesses.length : Rat))).sum /
      ((runGames playOnce k s).length : Rat)
    score_avg := ((runGames playOnce k s).map (fun o => o.score)).sum /
      ((runGames playOnce k s).length : Rat)
    result := ((runGames playOnce k s).map (fun o => o.result)).sum /
      ((runGames playOnce k s).length : Rat) }, ?_, ?_, ?_, ?_, ?_, ?_⟩
  · rw [BaseAgent.play, hfuel, hs']
    simp only [List.nil_append]
    rw [if_neg (by omega : ¬(runGames playOnce k s).length = 0)]
  · exact hlen
  · exact hlen
  · simp only [hlen]
  · simp only [hlen]
  · simp only [hlen]

/-- A constant `play_once` used by the C8 witness: it reports one guess, a
success flag of 1 and a score of 2, and leaves the oracle state alone. -/
def constPlayOnce : GameState → GameOutcome × GameState :=
  fun s => (⟨[(wa, -2)], [], none, 1, 2⟩, s)

/-- C8, witnessed: a one-answer oracle with a constant `play_once`. -/
theorem C8_witness :
    (∀ s', ((constPlayOnce s').2).answers = s'.answers ∧
      ((constPlayOnce s').2).index = s'.index) ∧
    (⟨[wa], [wa], 0, none⟩ : GameState).index = 0 ∧
    (⟨[wa], [wa], 0, none⟩ : GameState).answers.length = 1 ∧ 1 ≤ 1 ∧
    ∃ r, BaseAgent.play constPlayOnce ⟨[wa], [wa], 0, none⟩ 0 = some (.ok r) ∧
      r.count = 1 ∧ r.history.length = 1 ∧
      r.result = (r.history.map (fun o => o.result)).sum / (1 : Rat) ∧
      r.guess_avg = (r.history.map (fun o => (o.guesses.length : Rat))).sum / (1 : Rat) ∧
      r.score_avg = (r.history.map (fun o => o.score)).sum / (1 : Rat) :=
  ⟨fun _ => ⟨rfl, rfl⟩, rfl, rfl, le_refl 1,
   C8_play_aggregates constPlayOnce ⟨[wa], [wa], 0, none⟩ 1
     (fun _ => ⟨rfl, rfl⟩) rfl rfl (le_refl 1)⟩

/-! ### C10 -/

/-- C10: when the answers list is empty, the very first `Game.start` returns
`False`, no game is played, `history` stays empty, and the aggregation's
division by `len(history)` raises `ZeroDivisionError` instead of returning a
result structure — for every `play_once` implementation and every limit. -/
theorem C10_play_empty_answers (playOnce : GameState → GameOutcome × GameState)
    (s : GameState) (n : Nat) (h1 : s.answers = []) (h2 : s.index = 0) :
    BaseAgent.play playOnce s n =
      some (.error "ZeroDivisionError: division by zero") := by
  simp [BaseAgent.play, playLoop, Game.start, h1, h2]

/-- C10, witnessed at a concrete oracle state. -/
theorem C10_witness :
    (⟨[wa], [], 0, none⟩ : GameState).answers = [] ∧
    (⟨[wa], [], 0, none⟩ : GameState).index = 0 ∧
    BaseAgent.play (fun s => (⟨[], [], none, 0, 0⟩, s)) ⟨[wa], [], 0, none⟩ 0 =
      some (.error "ZeroDivisionError: division by zero") :=
  ⟨rfl, rfl, C10_play_empty_answers (fun s => (⟨[], [], none, 0, 0⟩, s))
    ⟨[wa], [], 0, none⟩ 0 rfl rfl⟩

end WPA
